import Mathlib

/-!
Verification development for the Mauritius job-market analysis pipeline
(`streamlit_app.py`, class `JobDataAnalyzer`).

The extraction core of the program is shallowly embedded here:

* strings are `List Char`; only the ASCII fragment of Python's Unicode
  classes (`\d`, `\s`, `str.upper`, `str.strip`, ...) is modelled, which
  covers every string the program's fixed patterns and vocabularies use;
* Python regular expressions are embedded as an explicit AST (`RE`) with a
  backtracking matcher (`mat`) that reproduces `re` semantics for the
  constructs the program uses: leftmost search position wins, left-biased
  alternation, greedy `*`, `?` and `{m,n}` quantifiers, numbered capture
  groups; the matcher is fuel-indexed for structural termination and the
  fuel supplied by `reSearch` strictly dominates the depth of any
  backtracking path of the program's patterns (every quantified sub-pattern
  consumes at least one character per iteration);
* `float`/`NaN` salary columns become `Option` values with absorbing
  (`NaN`-propagating) arithmetic;
* `pd.to_datetime(..., format=dayfirst)` becomes a calendar validity check
  together with the pandas `Timestamp` range restriction, and the fact that
  it raises on invalid input is modelled with `Except`.
-/

/-- Python `\s` (ASCII fragment): the whitespace class used by `re` and by
`str.strip`. -/
def pyWsB (c : Char) : Bool :=
  c == ' ' || c == '\t' || c == '\n' || c == '\r' || c == '\x0b' || c == '\x0c'

/-- Python `\d` (ASCII fragment). -/
def pyDigitB (c : Char) : Bool :=
  '0' ≤ c && c ≤ '9'

/-- ASCII letter, i.e. the class `[A-Za-z]`. -/
def pyAlphaB (c : Char) : Bool :=
  ('A' ≤ c && c ≤ 'Z') || ('a' ≤ c && c ≤ 'z')

/-- `str.strip()`: drop leading and trailing whitespace. -/
def pyStrip (l : List Char) : List Char :=
  ((l.dropWhile pyWsB).reverse.dropWhile pyWsB).reverse

/-- Worker for `re.sub(r"\s+", " ", s)`: replace each maximal whitespace run
by a single space.  The flag records whether the previous character was
part of a whitespace run. -/
def collGo : List Char → Bool → List Char
  | [], _ => []
  | c :: t, prev =>
    if pyWsB c then
      if prev then collGo t true else ' ' :: collGo t true
    else c :: collGo t false

/-- `re.sub(r"\s+", " ", s)`. -/
def collapseWs (l : List Char) : List Char := collGo l false

/-- Value of a digit string, as read by Python `int`/`float` on an
all-digit literal. -/
def digitsToNat (l : List Char) : Nat :=
  l.foldl (fun a c => 10 * a + (c.toNat - 48)) 0

/-- Python `int(s)` on the strings produced by the salary patterns
(digit/comma groups with the commas already removed): succeeds exactly on
nonempty all-digit strings. -/
def pyIntNat (l : List Char) : Option Nat :=
  if l.isEmpty then none
  else if l.all pyDigitB then some (digitsToNat l) else none

/-- Substring test, Python's `in` on strings: `occursIn pat s` holds when
`pat` occurs contiguously in `s`. -/
def isPrefList : List Char → List Char → Bool
  | [], _ => true
  | _ :: _, [] => false
  | a :: as, b :: bs => a == b && isPrefList as bs

def occursIn (pat : List Char) : List Char → Bool
  | [] => isPrefList pat []
  | s@(_ :: rest) => isPrefList pat s || occursIn pat rest

/-- `str.upper()` (ASCII fragment). -/
def pyUpper (l : List Char) : List Char := l.map Char.toUpper

/-- `str.lower()` (ASCII fragment). -/
def pyLower (l : List Char) : List Char := l.map Char.toLower

/-- `str.title()` (ASCII fragment): a letter is uppercased when the previous
character is not a letter, lowercased otherwise. -/
def pyTitleGo : Bool → List Char → List Char
  | _, [] => []
  | prev, c :: t =>
    if pyAlphaB c then
      (if prev then c.toLower else c.toUpper) :: pyTitleGo true t
    else c :: pyTitleGo false t

def pyTitle (l : List Char) : List Char := pyTitleGo false l

/-! ## Regular-expression engine (Python `re` fragment) -/

/-- Regex AST for the fragment the program uses.  Character classes carry
their membership test; case-insensitive literals are encoded as classes. -/
inductive RE where
  | eps : RE
  | cls : (Char → Bool) → RE
  | seq : RE → RE → RE
  | alt : RE → RE → RE
  | star : RE → RE
  | group : Nat → RE → RE

/-- Captured groups: most recent write first. -/
abbrev Caps := List (Nat × List Char)

def capGet (caps : Caps) (i : Nat) : Option (List Char) :=
  (caps.find? (fun p => p.1 == i)).map (fun p => p.2)

/-- Matcher instructions: a regex to match, or a group-close marker
remembering the suffix at which the group was opened. -/
inductive Inst where
  | re : RE → Inst
  | close : Nat → List Char → Inst

/-- Matcher outcome: definite failure, a successful match (captures and
remaining suffix), or fuel exhaustion. -/
inductive MRes where
  | fail : MRes
  | out : Caps → List Char → MRes
  | fuelout : MRes
deriving DecidableEq

/-- Left-biased combination realizing backtracking order: a success or a
fuel report of the preferred branch is final; only a definite failure falls
through to the alternative. -/
def combine (a : MRes) (b : Unit → MRes) : MRes :=
  match a with
  | .out caps rest => .out caps rest
  | .fuelout => .fuelout
  | .fail => b ()

/-- One expansion step of the backtracking matcher.  `recur` is the matcher
at the next fuel level.  Greedy semantics: `alt` prefers its left branch,
`star` prefers iterating. -/
def matStep (recur : List Inst → List Char → Caps → MRes) :
    List Inst → List Char → Caps → MRes
  | [], s, caps => .out caps s
  | .close i s0 :: rest, s, caps =>
      recur rest s ((i, s0.take (s0.length - s.length)) :: caps)
  | .re r :: rest, s, caps =>
    match r with
    | .eps => recur rest s caps
    | .cls p =>
      match s with
      | [] => .fail
      | c :: t => if p c then recur rest t caps else .fail
    | .seq a b => recur (.re a :: .re b :: rest) s caps
    | .alt a b =>
        combine (recur (.re a :: rest) s caps)
          (fun _ => recur (.re b :: rest) s caps)
    | .star a =>
        combine (recur (.re a :: .re (.star a) :: rest) s caps)
          (fun _ => recur rest s caps)
    | .group i a => recur (.re a :: .close i s :: rest) s caps

/-- Fuel-indexed backtracking matcher, anchored at the start of `s`. -/
def mat : Nat → List Inst → List Char → Caps → MRes
  | 0, _, _, _ => .fuelout
  | fuel + 1, insts, s, caps => matStep (mat fuel) insts s caps

/-- `re.search` position scan: try the match at each successive suffix,
leftmost success wins. -/
def searchFrom (fuel : Nat) (insts : List Inst) : List Char → MRes
  | [] =>
    (match mat fuel insts [] [] with
     | .out caps rest => .out caps rest
     | other => other)
  | c :: rest =>
    (match mat fuel insts (c :: rest) [] with
     | .out caps r2 => .out caps r2
     | .fuelout => .fuelout
     | .fail => searchFrom fuel insts rest)

/-- Structural size of a regex, used only to provision fuel. -/
def reSize : RE → Nat
  | .eps => 1
  | .cls _ => 1
  | .seq a b => reSize a + reSize b + 1
  | .alt a b => reSize a + reSize b + 1
  | .star a => reSize a + 1
  | .group _ a => reSize a + 2

/-- `re.search(r, s)`: captures of the leftmost match, if any.  The fuel
bounds the depth of one backtracking path; for the program's patterns
(whose quantified bodies all consume input) a path performs at most one
expansion bounded by the pattern size between consecutive consumed
characters, so the supplied fuel is never exhausted. -/
def reSearch (r : RE) (s : List Char) : Option Caps :=
  match searchFrom ((s.length + reSize r + 2) * (reSize r + 2) + 16)
      [.re r] s with
  | .out caps _ => some caps
  | _ => none

/-! Convenience constructors mirroring regex syntax. -/

def chrCS (c : Char) : RE := .cls (fun x => x == c)

def chrCI (c : Char) : RE := .cls (fun x => x.toLower == c.toLower)

/-- Case-sensitive literal. -/
def litCS (s : String) : RE := s.data.foldr (fun c r => .seq (chrCS c) r) .eps

/-- Case-insensitive literal (`re.IGNORECASE`). -/
def litCI (s : String) : RE := s.data.foldr (fun c r => .seq (chrCI c) r) .eps

def optRE (a : RE) : RE := .alt a .eps

def plusRE (a : RE) : RE := .seq a (.star a)

def digitRE : RE := .cls pyDigitB

def wsRE : RE := .cls pyWsB

def wsStar : RE := .star wsRE

def wsPlus : RE := plusRE wsRE

/-! ## The program's regular expressions

Each definition transcribes one regex literal from
`JobDataAnalyzer`.  Shared sub-regexes that are written with the same text
in the source (`\d{1,2}(?:,\d{3})*`, `\s*-\s*`, ...) are shared constants
here. -/

/-- `\d{1,2}` (greedy: two digits preferred). -/
def num12 : RE := .seq digitRE (optRE digitRE)

/-- `(?:,\d{3})`. -/
def commaGroup : RE :=
  .seq (chrCS ',') (.seq digitRE (.seq digitRE digitRE))

/-- `\d{1,2}(?:,\d{3})*`, the numeric amount used throughout the salary
patterns. -/
def numRE : RE := .seq num12 (.star commaGroup)

/-- `\s*-\s*`. -/
def dashSep : RE := .seq wsStar (.seq (chrCS '-') wsStar)

/-- Pattern 1, case-sensitive:
`([A-Za-z\s]+)\s+(Negotiable|Not disclosed|\d{1,2}(?:,\d{3})*(?:\s*-\s*\d{1,2}(?:,\d{3})*)?)\s+(Permanent|Contract|Temporary)`. -/
def locSalTypeRE : RE :=
  .seq (.group 1 (plusRE (.cls (fun c => pyAlphaB c || pyWsB c))))
    (.seq wsPlus
      (.seq (.group 2
          (.alt (litCS "Negotiable")
            (.alt (litCS "Not disclosed")
              (.seq numRE (optRE (.seq dashSep numRE))))))
        (.seq wsPlus
          (.group 3
            (.alt (litCS "Permanent")
              (.alt (litCS "Contract") (litCS "Temporary")))))))

/-- `MUR\s*(\d{1,2}(?:,\d{3})*)\s*-\s*(\d{1,2}(?:,\d{3})*)`, IGNORECASE. -/
def salPatMurRange : RE :=
  .seq (litCI "MUR")
    (.seq wsStar (.seq (.group 1 numRE) (.seq dashSep (.group 2 numRE))))

/-- `(\d{1,2}(?:,\d{3})*)\s*-\s*(\d{1,2}(?:,\d{3})*)\s*MUR`, IGNORECASE. -/
def salPatRangeMur : RE :=
  .seq (.group 1 numRE)
    (.seq dashSep (.seq (.group 2 numRE) (.seq wsStar (litCI "MUR"))))

/-- `Rs\s*(\d{1,2}(?:,\d{3})*)\s*-\s*(\d{1,2}(?:,\d{3})*)`, IGNORECASE. -/
def salPatRsRange : RE :=
  .seq (litCI "Rs")
    (.seq wsStar (.seq (.group 1 numRE) (.seq dashSep (.group 2 numRE))))

/-- `(\d{1,2}(?:,\d{3})*)\s*-\s*(\d{1,2}(?:,\d{3})*)\s*Rs`, IGNORECASE. -/
def salPatRangeRs : RE :=
  .seq (.group 1 numRE)
    (.seq dashSep (.seq (.group 2 numRE) (.seq wsStar (litCI "Rs"))))

/-- `MUR\s*(\d{1,2}(?:,\d{3})*)`, IGNORECASE. -/
def salPatMurSingle : RE :=
  .seq (litCI "MUR") (.seq wsStar (.group 1 numRE))

/-- `Rs\s*(\d{1,2}(?:,\d{3})*)`, IGNORECASE. -/
def salPatRsSingle : RE :=
  .seq (litCI "Rs") (.seq wsStar (.group 1 numRE))

/-- `(\d{1,2}(?:,\d{3})*)\s*MUR`, IGNORECASE. -/
def salPatSingleMur : RE :=
  .seq (.group 1 numRE) (.seq wsStar (litCI "MUR"))

/-- `(\d{1,2}(?:,\d{3})*)\s*Rs`, IGNORECASE. -/
def salPatSingleRs : RE :=
  .seq (.group 1 numRE) (.seq wsStar (litCI "Rs"))

/-- The `salary_patterns` list, in source order, each with its number of
capture groups. -/
def salaryPatterns : List (RE × Nat) :=
  [(salPatMurRange, 2), (salPatRangeMur, 2), (salPatRsRange, 2),
   (salPatRangeRs, 2), (salPatMurSingle, 1), (salPatRsSingle, 1),
   (salPatSingleMur, 1), (salPatSingleRs, 1)]

/-- `(\d{1,2}(?:,\d{3})*)\s*-\s*\d{1,2}(?:,\d{3})*` from
`extract_salary_min`. -/
def minRangeRE : RE := .seq (.group 1 numRE) (.seq dashSep numRE)

/-- `\d{1,2}(?:,\d{3})*\s*-\s*(\d{1,2}(?:,\d{3})*)` from
`extract_salary_max`. -/
def maxRangeRE : RE := .seq numRE (.seq dashSep (.group 1 numRE))

/-- `(\d{1,2}(?:,\d{3})*)`, the single-value pattern shared verbatim by
`extract_salary_min` and `extract_salary_max`. -/
def singleNumRE : RE := .group 1 numRE

/-- `Added\s+(\d{2}/\d{2}/\d{4})` from `extract_posted_date`. -/
def dateRE : RE :=
  .seq (litCS "Added")
    (.seq wsPlus
      (.group 1
        (.seq digitRE (.seq digitRE (.seq (chrCS '/')
          (.seq digitRE (.seq digitRE (.seq (chrCS '/')
            (.seq digitRE (.seq digitRE (.seq digitRE digitRE)))))))))))

/-- `(\d+)\+?\s*years?` from `extract_experience`, IGNORECASE. -/
def expPatYears : RE :=
  .seq (.group 1 (plusRE digitRE))
    (.seq (optRE (chrCS '+'))
      (.seq wsStar (.seq (litCI "year") (optRE (chrCI 's')))))

/-- `(\d+)\s*ans?` from `extract_experience`, IGNORECASE. -/
def expPatAns : RE :=
  .seq (.group 1 (plusRE digitRE))
    (.seq wsStar (.seq (litCI "an") (optRE (chrCI 's'))))

/-- `minimum\s+(\d+)\s*years?`, IGNORECASE. -/
def expPatMinimum : RE :=
  .seq (litCI "minimum")
    (.seq wsPlus (.seq (.group 1 (plusRE digitRE))
      (.seq wsStar (.seq (litCI "year") (optRE (chrCI 's'))))))

/-- `at\s+least\s+(\d+)\s*years?`, IGNORECASE. -/
def expPatAtLeast : RE :=
  .seq (litCI "at")
    (.seq wsPlus (.seq (litCI "least")
      (.seq wsPlus (.seq (.group 1 (plusRE digitRE))
        (.seq wsStar (.seq (litCI "year") (optRE (chrCI 's'))))))))

def expPatterns : List RE :=
  [expPatYears, expPatAns, expPatMinimum, expPatAtLeast]

/-! ## Extraction functions -/

/-- `match.groups()` for a pattern with `ng` capture groups. -/
def pyGroups (caps : Caps) (ng : Nat) : List (Option (List Char)) :=
  (List.range ng).map (fun i => capGet caps (i + 1))

/-- Rendering of an optional group in an f-string (`None` when absent). -/
def pyStrOpt : Option (List Char) → List Char
  | some l => l
  | none => (r"None").data

/-- The `for pattern in salary_patterns` loop of
`extract_salary_from_description` (lines 121-134): first match wins; a
two-group match returns `"g1 - g2"`; a one-group match returns the group
only when its comma-stripped integer value is at least 1000, otherwise the
loop moves on to the next pattern (as it also does when `int` fails). -/
def tryPatterns : List (RE × Nat) → List Char → Option (List Char)
  | [], _ => none
  | (p, ng) :: rest, s =>
    match reSearch p s with
    | none => tryPatterns rest s
    | some caps =>
      let gs := pyGroups caps ng
      if 2 ≤ gs.length ∧ gs.getD 1 none ≠ none then
        some (pyStrOpt (gs.getD 0 none) ++ (r" - ").data
          ++ pyStrOpt (gs.getD 1 none))
      else
        match gs.getD 0 none with
        | none => tryPatterns rest s
        | some g =>
          match pyIntNat (g.filter (fun c => c != ',')) with
          | none => tryPatterns rest s
          | some v =>
            if 1000 ≤ v then some g else tryPatterns rest s

/-- `JobDataAnalyzer.extract_salary_from_description` (lines 94-144) for a
non-null description. -/
def extract_salary_from_description (desc : List Char) : List Char :=
  match reSearch locSalTypeRE desc with
  | some caps => pyStrip (pyStrOpt (capGet caps 2))
  | none =>
    match tryPatterns salaryPatterns desc with
    | some r => r
    | none =>
      if occursIn (r"Negotiable").data desc then (r"Negotiable").data
      else if occursIn (r"Not disclosed").data desc then
        (r"Not disclosed").data
      else (r"Not specified").data

/-- `JobDataAnalyzer.clean_salary` (lines 146-162) for a non-null input:
exact sentinel passes through; any occurrence of `Negotiable` or
`Not disclosed` collapses to `Negotiable`; otherwise the characters `M`,
`U`, `R`, `s` (the class `[MURRs]`, which subsumes the `MUR`/`Rs`
alternates) and commas are removed, whitespace runs are collapsed and the
result is trimmed. -/
def clean_salary (s : List Char) : List Char :=
  if s = (r"Not specified").data then (r"Not specified").data
  else
    let s1 := pyStrip s
    if occursIn (r"Negotiable").data s1 ∨ occursIn (r"Not disclosed").data s1
    then (r"Negotiable").data
    else
      pyStrip (collapseWs
        ((s1.filter (fun c =>
            !(c == 'M' || c == 'U' || c == 'R' || c == 's'))).filter
          (fun c => c != ',')))

/-- `JobDataAnalyzer.extract_salary_min` (lines 164-181): `None` on
sentinels, else the first capture of the leftmost range match, else the
leftmost single number; `float(... .replace(',', ''))` on an all-digit
capture is its numeric value. -/
def extract_salary_min (s : List Char) : Option Nat :=
  if occursIn (r"Not specified").data s ∨ occursIn (r"Negotiable").data s
  then none
  else
    match reSearch minRangeRE s with
    | some caps =>
      match capGet caps 1 with
      | some g => some (digitsToNat (g.filter (fun c => c != ',')))
      | none => none
    | none =>
      match reSearch singleNumRE s with
      | some caps =>
        match capGet caps 1 with
        | some g => some (digitsToNat (g.filter (fun c => c != ',')))
        | none => none
      | none => none

/-- `JobDataAnalyzer.extract_salary_max` (lines 183-200), symmetric to
`extract_salary_min` with the second range capture. -/
def extract_salary_max (s : List Char) : Option Nat :=
  if occursIn (r"Not specified").data s ∨ occursIn (r"Negotiable").data s
  then none
  else
    match reSearch maxRangeRE s with
    | some caps =>
      match capGet caps 1 with
      | some g => some (digitsToNat (g.filter (fun c => c != ',')))
      | none => none
    | none =>
      match reSearch singleNumRE s with
      | some caps =>
        match capGet caps 1 with
        | some g => some (digitsToNat (g.filter (fun c => c != ',')))
        | none => none
      | none => none

/-- `NaN`-propagating addition on the float salary columns. -/
def naAdd : Option ℚ → Option ℚ → Option ℚ
  | some a, some b => some (a + b)
  | _, _ => none

/-- `NaN`-propagating halving. -/
def naHalf (a : Option ℚ) : Option ℚ := a.map (fun x => x / 2)

/-- Line 74: `salary_average = (salary_min + salary_max) / 2` under float
`NaN` semantics. -/
def salaryAverageOf (mn mx : Option Nat) : Option ℚ :=
  naHalf (naAdd (mn.map (fun n => (n : ℚ))) (mx.map (fun n => (n : ℚ))))

/-- The fixed location vocabulary (lines 207-209), in iteration order. -/
def locationsList : List (List Char) :=
  [(r"Port Louis").data, (r"Plaine Wilhems").data, (r"Pamplemousses").data,
   (r"Black River").data, (r"Moka").data, (r"Flacq").data,
   (r"Riviere du Rempart").data, (r"Grand Port").data, (r"Savanne").data,
   (r"Mauritius").data, (r"Rodrigues").data]

def findLocation (descU : List Char) : List (List Char) → List Char
  | [] => (r"Not specified").data
  | loc :: rest =>
    if occursIn (pyUpper loc) descU then loc else findLocation descU rest

/-- `JobDataAnalyzer.extract_location` (lines 202-216). -/
def extract_location (desc : List Char) : List Char :=
  findLocation (pyUpper desc) locationsList

/-- `JobDataAnalyzer.extract_job_type` (lines 218-234). -/
def extract_job_type (desc : List Char) : List Char :=
  let u := pyUpper desc
  if occursIn (r"PERMANENT").data u ∨ occursIn (r"CDI").data u then
    (r"Permanent").data
  else if occursIn (r"CONTRACT").data u ∨ occursIn (r"TEMPORARY").data u then
    (r"Contract/Temporary").data
  else if occursIn (r"TRAINEE").data u ∨ occursIn (r"INTERNSHIP").data u then
    (r"Trainee").data
  else if occursIn (r"PART-TIME").data u then (r"Part-time").data
  else (r"Not specified").data

/-- Bucketing of `int(match.group(1))` in `extract_experience`. -/
def expBucket (years : Nat) : List Char :=
  if years ≤ 2 then (r"Entry Level (0-2 years)").data
  else if years ≤ 5 then (r"Mid Level (3-5 years)").data
  else if years ≤ 10 then (r"Senior Level (6-10 years)").data
  else (r"Executive Level (10+ years)").data

def findExperience (desc : List Char) : List RE → List Char
  | [] => (r"Not specified").data
  | p :: rest =>
    match reSearch p desc with
    | some caps =>
      expBucket (digitsToNat (pyStrOpt (capGet caps 1)))
    | none => findExperience desc rest

/-- `JobDataAnalyzer.extract_experience` (lines 236-263). -/
def extract_experience (desc : List Char) : List Char :=
  findExperience desc expPatterns

/-- The fixed skills vocabulary (lines 272-279). -/
def skillsList : List (List Char) :=
  [(r"excel").data, (r"word").data, (r"powerpoint").data,
   (r"microsoft office").data, (r"communication").data, (r"teamwork").data,
   (r"leadership").data, (r"project management").data,
   (r"customer service").data, (r"sales").data, (r"marketing").data,
   (r"accounting").data, (r"finance").data, (r"hr").data,
   (r"recruitment").data, (r"french").data, (r"english").data,
   (r"bilingual").data, (r"computer").data, (r"software").data,
   (r"it").data, (r"networking").data, (r"programming").data,
   (r"database").data, (r"analysis").data, (r"problem solving").data,
   (r"time management").data, (r"organization").data, (r"planning").data,
   (r"research").data, (r"writing").data]

/-- `JobDataAnalyzer.extract_skills` (lines 265-286). -/
def extract_skills (desc : List Char) : List (List Char) :=
  let lo := pyLower desc
  (skillsList.filter (fun sk => occursIn sk lo)).map pyTitle

/-- Gregorian leap year, as used by `datetime`. -/
def isLeap (y : Nat) : Bool :=
  y % 4 == 0 && (y % 100 != 0 || y % 400 == 0)

def daysInMonth (m y : Nat) : Nat :=
  if m = 2 then (if isLeap y then 29 else 28)
  else if m = 4 ∨ m = 6 ∨ m = 9 ∨ m = 11 then 30
  else 31

/-- Lexicographic date ordering used to express the pandas `Timestamp`
range. -/
def dateLe (y1 m1 d1 y2 m2 d2 : Nat) : Bool :=
  y1 < y2 || (y1 == y2 && (m1 < m2 || (m1 == m2 && d1 ≤ d2)))

/-- Success condition of `pd.to_datetime(tok, format=dayfirst)`: a valid
day-first calendar date that also lies inside the representable
`pd.Timestamp` range (midnight of 1677-09-22 through 2262-04-11);
`pd.to_datetime` raises outside it. -/
def pdValidDate (d m y : Nat) : Bool :=
  1 ≤ m && m ≤ 12 && 1 ≤ d && d ≤ daysInMonth m y
    && dateLe 1677 9 22 y m d && dateLe y m d 2262 4 11

/-- `JobDataAnalyzer.extract_posted_date` (lines 288-299) for a non-null
description.  `Except.error ()` models the uncaught exception raised by
`pd.to_datetime` when the located `DD/MM/YYYY` token is not a parseable
date. -/
def extract_posted_date (desc : List Char) :
    Except Unit (Option (Nat × Nat × Nat)) :=
  match reSearch dateRE desc with
  | none => .ok none
  | some caps =>
    match capGet caps 1 with
    | none => .ok none
    | some g =>
      let dd := digitsToNat (g.take 2)
      let mm := digitsToNat ((g.drop 3).take 2)
      let yy := digitsToNat (g.drop 6)
      if pdValidDate dd mm yy then .ok (some (dd, mm, yy))
      else .error ()

/-! ## Normalization / aggregation layer -/

/-- One raw input record (the raw source columns used by the analyzer). -/
structure RawRecord where
  title : List Char
  company : List Char
  description : List Char
deriving DecidableEq

/-- One fully derived row of the structured table built by `clean_data`. -/
structure JobRow where
  raw : RawRecord
  salary_extracted : List Char
  salary_cleaned : List Char
  salary_min : Option Nat
  salary_max : Option Nat
  salary_average : Option ℚ
  location_cleaned : List Char
  job_type_cleaned : List Char
  experience_cleaned : List Char
  skills : List (List Char)
  company_cleaned : List Char
  posted_date_cleaned : Option (Nat × Nat × Nat)
deriving DecidableEq

/-- Derivation of all extracted columns of one record, in the dataflow of
`clean_data` (lines 62-92).  The only failing step is the posted-date
conversion, whose uncaught exception aborts the whole computation. -/
def processRecord (r : RawRecord) : Except Unit JobRow :=
  let se := extract_salary_from_description r.description
  let sc := clean_salary se
  let mn := extract_salary_min sc
  let mx := extract_salary_max sc
  match extract_posted_date r.description with
  | .error e => .error e
  | .ok pd =>
    .ok
      { raw := r
        salary_extracted := se
        salary_cleaned := sc
        salary_min := mn
        salary_max := mx
        salary_average := salaryAverageOf mn mx
        location_cleaned := extract_location r.description
        job_type_cleaned := extract_job_type r.description
        experience_cleaned := extract_experience r.description
        skills := extract_skills r.description
        company_cleaned := pyStrip r.company
        posted_date_cleaned := pd }

/-- `df.drop_duplicates()` (line 65): keep the first occurrence of each
record, in order; `seen` accumulates the records already kept. -/
def dedupAux {α : Type} [DecidableEq α] (seen : List α) : List α → List α
  | [] => []
  | x :: xs =>
    if x ∈ seen then dedupAux seen xs else x :: dedupAux (x :: seen) xs

def dedupFirst {α : Type} [DecidableEq α] (l : List α) : List α :=
  dedupAux [] l

/-- Fail-on-first-error traversal: `df.apply` propagates the first uncaught
exception and otherwise produces the full derived column. -/
def exMapM {α β ε : Type} (f : α → Except ε β) : List α → Except ε (List β)
  | [] => .ok []
  | x :: xs =>
    match f x with
    | .error e => .error e
    | .ok y =>
      match exMapM f xs with
      | .error e => .error e
      | .ok ys => .ok (y :: ys)

/-- `JobDataAnalyzer.clean_data` (lines 62-92): deduplicate, then derive
every extracted column per record. -/
def clean_data (t : List RawRecord) : Except Unit (List JobRow) :=
  exMapM processRecord (dedupFirst t)

instance {ε α : Type} [DecidableEq ε] [DecidableEq α] :
    DecidableEq (Except ε α) := fun a b =>
  match a, b with
  | .error e, .error f =>
    if h : e = f then .isTrue (by rw [h])
    else .isFalse (fun hc => h (by injection hc))
  | .error _, .ok _ => .isFalse (fun hc => Except.noConfusion hc)
  | .ok _, .error _ => .isFalse (fun hc => Except.noConfusion hc)
  | .ok x, .ok y =>
    if h : x = y then .isTrue (by rw [h])
    else .isFalse (fun hc => h (by injection hc))

/-! ## Library lemmas: deduplication -/

theorem mem_dedupAux {α : Type} [DecidableEq α] (a : α) :
    ∀ (l seen : List α), a ∈ dedupAux seen l ↔ a ∈ l ∧ a ∉ seen := by
  intro l
  induction l with
  | nil => intro seen; simp [dedupAux]
  | cons x xs ih =>
    intro seen
    by_cases hx : x ∈ seen
    · simp only [dedupAux, if_pos hx, ih]
      constructor
      · rintro ⟨h1, h2⟩; exact ⟨List.mem_cons_of_mem _ h1, h2⟩
      · rintro ⟨h1, h2⟩
        rcases List.mem_cons.mp h1 with rfl | h1
        · exact absurd hx h2
        · exact ⟨h1, h2⟩
    · simp only [dedupAux, if_neg hx, List.mem_cons, ih]
      constructor
      · rintro (rfl | ⟨h1, h2⟩)
        · exact ⟨Or.inl rfl, hx⟩
        · exact ⟨Or.inr h1, fun hs => h2 (Or.inr hs)⟩
      · rintro ⟨rfl | h1, h2⟩
        · exact Or.inl rfl
        · by_cases hax : a = x
          · exact Or.inl hax
          · exact Or.inr ⟨h1, fun hor => hor.elim hax h2⟩

theorem mem_dedupFirst {α : Type} [DecidableEq α] (a : α) (l : List α) :
    a ∈ dedupFirst l ↔ a ∈ l := by
  simp [dedupFirst, mem_dedupAux]

theorem dedupAux_sublist {α : Type} [DecidableEq α] :
    ∀ (l seen : List α), (dedupAux seen l).Sublist l := by
  intro l
  induction l with
  | nil => intro seen; simp [dedupAux]
  | cons x xs ih =>
    intro seen
    by_cases hx : x ∈ seen
    · simpa [dedupAux, if_pos hx] using (ih seen).cons x
    · simpa [dedupAux, if_neg hx] using (ih (x :: seen)).cons₂ x

theorem nodup_dedupAux {α : Type} [DecidableEq α] :
    ∀ (l seen : List α), (dedupAux seen l).Nodup := by
  intro l
  induction l with
  | nil => intro seen; simp [dedupAux]
  | cons x xs ih =>
    intro seen
    by_cases hx : x ∈ seen
    · simpa [dedupAux, if_pos hx] using ih seen
    · simp only [dedupAux, if_neg hx, List.nodup_cons]
      refine ⟨fun hmem => ?_, ih (x :: seen)⟩
      exact ((mem_dedupAux x xs (x :: seen)).mp hmem).2 (List.mem_cons_self x seen)

theorem dedupAux_eq_self {α : Type} [DecidableEq α] :
    ∀ (l seen : List α), l.Nodup → (∀ a ∈ l, a ∉ seen) →
      dedupAux seen l = l := by
  intro l
  induction l with
  | nil => intro seen _ _; simp [dedupAux]
  | cons x xs ih =>
    intro seen hnd hdis
    have hx : x ∉ seen := hdis x (List.mem_cons_self x xs)
    simp only [dedupAux, if_neg hx, List.cons.injEq, true_and]
    refine ih (x :: seen) (List.nodup_cons.mp hnd).2 ?_
    intro a ha
    simp only [List.mem_cons]
    rintro (rfl | hseen)
    · exact (List.nodup_cons.mp hnd).1 ha
    · exact hdis a (List.mem_cons_of_mem _ ha) hseen

theorem dedupFirst_idem {α : Type} [DecidableEq α] (l : List α) :
    dedupFirst (dedupFirst l) = dedupFirst l :=
  dedupAux_eq_self _ _ (nodup_dedupAux l []) (by simp)

/-! ## Library lemmas: the fail-fast traversal -/

theorem exMapM_ok_length {α β ε : Type} (f : α → Except ε β) :
    ∀ (l : List α) (out : List β), exMapM f l = .ok out →
      out.length = l.length := by
  intro l
  induction l with
  | nil => intro out h; simp only [exMapM] at h; injection h with h; simp [h.symm]
  | cons x xs ih =>
    intro out h
    simp only [exMapM] at h
    cases hfx : f x with
    | error e => rw [hfx] at h; exact absurd h (by simp)
    | ok y =>
      rw [hfx] at h
      cases hrest : exMapM f xs with
      | error e => rw [hrest] at h; exact absurd h (by simp)
      | ok ys =>
        rw [hrest] at h
        injection h with h
        simp [h.symm, ih ys hrest]

theorem exMapM_ok_mem {α β ε : Type} (f : α → Except ε β) :
    ∀ (l : List α) (out : List β), exMapM f l = .ok out →
      ∀ b ∈ out, ∃ a ∈ l, f a = .ok b := by
  intro l
  induction l with
  | nil =>
    intro out h
    simp only [exMapM] at h; injection h with h
    simp [h.symm]
  | cons x xs ih =>
    intro out h
    simp only [exMapM] at h
    cases hfx : f x with
    | error e => rw [hfx] at h; exact absurd h (by simp)
    | ok y =>
      rw [hfx] at h
      cases hrest : exMapM f xs with
      | error e => rw [hrest] at h; exact absurd h (by simp)
      | ok ys =>
        rw [hrest] at h
        injection h with h
        intro b hb
        rw [h.symm] at hb
        rcases List.mem_cons.mp hb with rfl | hb
        · exact ⟨x, List.mem_cons_self x xs, hfx⟩
        · obtain ⟨a, ha, hfa⟩ := ih ys hrest b hb
          exact ⟨a, List.mem_cons_of_mem _ ha, hfa⟩

theorem exMapM_ok_get {α β ε : Type} (f : α → Except ε β) :
    ∀ (l : List α) (out : List β), exMapM f l = .ok out →
      ∀ i (hi : i < l.length) (ho : i < out.length),
        f (l.get ⟨i, hi⟩) = .ok (out.get ⟨i, ho⟩) := by
  intro l
  induction l with
  | nil => intro out h i hi; exact absurd hi (by simp)
  | cons x xs ih =>
    intro out h i hi ho
    simp only [exMapM] at h
    cases hfx : f x with
    | error e => rw [hfx] at h; exact absurd h (by simp)
    | ok y =>
      rw [hfx] at h
      cases hrest : exMapM f xs with
      | error e => rw [hrest] at h; exact absurd h (by simp)
      | ok ys =>
        rw [hrest] at h
        injection h with h
        subst h
        match i with
        | 0 => simpa using hfx
        | j + 1 =>
          exact ih ys hrest j (Nat.lt_of_succ_lt_succ hi)
            (Nat.lt_of_succ_lt_succ (by simpa using ho))

/-! ## Library lemmas: stripping and whitespace collapsing -/

theorem dropWhile_idem (p : Char → Bool) (l : List Char) :
    List.dropWhile p (List.dropWhile p l) = List.dropWhile p l := by
  cases h : List.dropWhile p l with
  | nil => rfl
  | cons c t =>
    have hc : p c = false := by
      have h2 := List.head?_dropWhile_not p l
      rw [h] at h2
      simpa using h2
    simp [List.dropWhile_cons, hc]

/-- A prefix of a list fixed by `dropWhile` is itself fixed. -/
theorem dropWhile_eq_self_of_prefix (p : Char → Bool) :
    ∀ (l l2 : List Char), List.dropWhile p l = l → l2 <+: l →
      List.dropWhile p l2 = l2 := by
  intro l l2 hl hpre
  cases l2 with
  | nil => rfl
  | cons c t2 =>
    obtain ⟨r, hr⟩ := hpre
    cases l with
    | nil => exact absurd hr (by simp)
    | cons d t =>
      have hcd : c = d := by
        have := hr
        simp only [List.cons_append] at this
        exact (List.cons.injEq _ _ _ _ ▸ this).1
      subst hcd
      have hc : p c = false := by
        by_contra hpc
        have hpc2 : p c = true := eq_true_of_ne_false hpc
        rw [List.dropWhile_cons, hpc2] at hl
        simp only [if_true] at hl
        have := congrArg List.length hl
        have hle := (List.dropWhile_sublist (l := t) p).length_le
        simp at this
        omega
      simp [List.dropWhile_cons, hc]


theorem dropWhile_isSuffix (p : Char → Bool) :
    ∀ l : List Char, ∃ t, t ++ l.dropWhile p = l := by
  intro l
  induction l with
  | nil => exact ⟨[], rfl⟩
  | cons c t ih =>
    cases hpc : p c with
    | true =>
      obtain ⟨t2, ht2⟩ := ih
      exact ⟨c :: t2, by simp [List.dropWhile_cons, hpc, ht2]⟩
    | false => exact ⟨[], by simp [List.dropWhile_cons, hpc]⟩

theorem pyStrip_idem (l : List Char) : pyStrip (pyStrip l) = pyStrip l := by
  unfold pyStrip
  set u := l.dropWhile pyWsB with hu
  set v := u.reverse.dropWhile pyWsB with hv
  have hA : v.reverse.dropWhile pyWsB = v.reverse := by
    refine dropWhile_eq_self_of_prefix pyWsB u v.reverse ?_ ?_
    · rw [hu, dropWhile_idem]
    · obtain ⟨t, ht⟩ := dropWhile_isSuffix pyWsB u.reverse
      refine ⟨t.reverse, ?_⟩
      rw [← List.reverse_append]
      rw [← hv] at ht
      rw [ht, List.reverse_reverse]
  rw [hA, List.reverse_reverse, hv, dropWhile_idem]

/-- Head is absent or not whitespace. -/
def headNotWs : List Char → Bool
  | [] => true
  | d :: _ => !pyWsB d

/-- Normal form of `collapseWs`: every whitespace character is a space and
no two whitespace characters are adjacent. -/
def isNormal : List Char → Bool
  | [] => true
  | c :: t => (if pyWsB c then c == ' ' && headNotWs t else true) && isNormal t

theorem collGo_head (t : List Char) :
    collGo t true = [] ∨
      ∃ c t2, collGo t true = c :: t2 ∧ pyWsB c = false := by
  induction t with
  | nil => exact Or.inl rfl
  | cons c t ih =>
    cases hpc : pyWsB c with
    | true => simpa [collGo, hpc] using ih
    | false => exact Or.inr ⟨c, collGo t false, by simp [collGo, hpc], hpc⟩

theorem isNormal_cons_space (t : List Char) (h1 : headNotWs t = true)
    (h2 : isNormal t = true) : isNormal (' ' :: t) = true := by
  simp [isNormal, pyWsB, h1, h2]

theorem isNormal_cons_of_not_ws (c : Char) (t : List Char)
    (h1 : pyWsB c = false) (h2 : isNormal t = true) :
    isNormal (c :: t) = true := by
  simp [isNormal, h1, h2]

theorem isNormal_collGo : ∀ (l : List Char) (b : Bool),
    isNormal (collGo l b) = true := by
  intro l
  induction l with
  | nil => intro b; rfl
  | cons c t ih =>
    intro b
    cases hpc : pyWsB c with
    | true =>
      cases b with
      | true => simpa [collGo, hpc] using ih true
      | false =>
        simp only [collGo, hpc, if_true]
        refine isNormal_cons_space _ ?_ (ih true)
        rcases collGo_head t with hnil | ⟨d, t2, hdt, hd⟩
        · simp [hnil, headNotWs]
        · simp [hdt, headNotWs, hd]
    | false =>
      simpa [collGo, hpc] using
        isNormal_cons_of_not_ws c (collGo t false) hpc (ih false)

theorem collGo_self_aux : ∀ l : List Char, isNormal l = true →
    collGo l false = l ∧
      (∀ c t2, l = c :: t2 → pyWsB c = false → collGo l true = l) := by
  intro l
  induction l with
  | nil => exact fun _ => ⟨rfl, fun c t2 h => by simp at h⟩
  | cons c t ih =>
    intro h
    simp only [isNormal, Bool.and_eq_true] at h
    obtain ⟨hcond, ht⟩ := h
    cases hpc : pyWsB c with
    | true =>
      rw [hpc] at hcond
      simp only [if_true, Bool.and_eq_true, beq_iff_eq] at hcond
      obtain ⟨hsp, hhead⟩ := hcond
      have htt : collGo t true = t := by
        cases t with
        | nil => rfl
        | cons d t2 =>
          have hd : pyWsB d = false := by
            simpa [headNotWs] using hhead
          exact (ih ht).2 d t2 rfl hd
      constructor
      · simp [collGo, hpc, htt, hsp, pyWsB]
      · intro c2 t2 hct hc2
        have hcc : c2 = c := by injection hct with h1 _; exact h1.symm
        rw [hcc, hpc] at hc2
        exact absurd hc2 (by simp)
    | false =>
      have hf : collGo t false = t := (ih ht).1
      exact ⟨by simp [collGo, hpc, hf], fun c2 t2 hct hc2 => by
        simp [collGo, hpc, hf]⟩

theorem collGo_eq_self (l : List Char) (h : isNormal l = true) :
    collGo l false = l :=
  (collGo_self_aux l h).1

theorem isNormal_append_right : ∀ t s : List Char,
    isNormal (t ++ s) = true → isNormal s = true := by
  intro t
  induction t with
  | nil => intro s h; exact h
  | cons c t ih =>
    intro s h
    simp only [List.cons_append, isNormal, Bool.and_eq_true] at h
    exact ih s h.2

theorem isNormal_append_left : ∀ t s : List Char,
    isNormal (t ++ s) = true → isNormal t = true := by
  intro t
  induction t with
  | nil => intro s _; rfl
  | cons c t ih =>
    intro s h
    simp only [List.cons_append, isNormal, Bool.and_eq_true] at h
    obtain ⟨hcond, ht⟩ := h
    simp only [isNormal, Bool.and_eq_true]
    refine ⟨?_, ih s ht⟩
    by_cases hpc : pyWsB c = true
    · simp only [hpc, eq_self_iff_true, if_true, Bool.and_eq_true]
        at hcond ⊢
      refine ⟨hcond.1, ?_⟩
      cases t with
      | nil => rfl
      | cons d t2 => simpa [headNotWs] using hcond.2
    · simp [hpc]

theorem isNormal_pyStrip (m : List Char) (h : isNormal m = true) :
    isNormal (pyStrip m) = true := by
  unfold pyStrip
  set u := m.dropWhile pyWsB with hu
  have hnu : isNormal u = true := by
    obtain ⟨t, ht⟩ := dropWhile_isSuffix pyWsB m
    rw [← hu] at ht
    exact isNormal_append_right t u (ht ▸ h)
  set v := u.reverse.dropWhile pyWsB with hv
  obtain ⟨t2, ht2⟩ := dropWhile_isSuffix pyWsB u.reverse
  rw [← hv] at ht2
  have hpre : v.reverse ++ t2.reverse = u := by
    rw [← List.reverse_append, ht2, List.reverse_reverse]
  exact isNormal_append_left _ _ (hpre ▸ hnu)

theorem mem_collGo : ∀ (l : List Char) (b : Bool) (a : Char),
    a ∈ collGo l b → a = ' ' ∨ a ∈ l := by
  intro l
  induction l with
  | nil => intro b a h; simp [collGo] at h
  | cons c t ih =>
    intro b a h
    cases hpc : pyWsB c with
    | true =>
      cases b with
      | true =>
        simp only [collGo, hpc, if_true] at h
        rcases ih true a h with h2 | h2
        · exact Or.inl h2
        · exact Or.inr (List.mem_cons_of_mem _ h2)
      | false =>
        simp only [collGo, hpc, if_true] at h
        rcases List.mem_cons.mp h with rfl | h2
        · exact Or.inl rfl
        · rcases ih true a h2 with h3 | h3
          · exact Or.inl h3
          · exact Or.inr (List.mem_cons_of_mem _ h3)
    | false =>
      simp only [collGo, hpc, Bool.false_eq_true, if_false] at h
      rcases List.mem_cons.mp h with rfl | h2
      · exact Or.inr (List.mem_cons_self _ _)
      · rcases ih false a h2 with h3 | h3
        · exact Or.inl h3
        · exact Or.inr (List.mem_cons_of_mem _ h3)

theorem mem_pyStrip (a : Char) (l : List Char) (h : a ∈ pyStrip l) :
    a ∈ l := by
  unfold pyStrip at h
  rw [List.mem_reverse] at h
  have h2 := (List.dropWhile_sublist (l := (l.dropWhile pyWsB).reverse)
    pyWsB).subset h
  rw [List.mem_reverse] at h2
  exact (List.dropWhile_sublist pyWsB).subset h2

/-! ## Library lemmas: single steps of the matcher -/

theorem mat_nil (f : Nat) (s : List Char) (caps : Caps) :
    mat (f + 1) [] s caps = .out caps s := rfl

theorem mat_eps (f : Nat) (rest : List Inst) (s : List Char) (caps : Caps) :
    mat (f + 1) (.re .eps :: rest) s caps = mat f rest s caps := rfl

theorem mat_seq (f : Nat) (a b : RE) (rest : List Inst) (s : List Char)
    (caps : Caps) :
    mat (f + 1) (.re (.seq a b) :: rest) s caps =
      mat f (.re a :: .re b :: rest) s caps := rfl

theorem mat_alt (f : Nat) (a b : RE) (rest : List Inst) (s : List Char)
    (caps : Caps) :
    mat (f + 1) (.re (.alt a b) :: rest) s caps =
      combine (mat f (.re a :: rest) s caps)
        (fun _ => mat f (.re b :: rest) s caps) := rfl

theorem mat_star (f : Nat) (a : RE) (rest : List Inst) (s : List Char)
    (caps : Caps) :
    mat (f + 1) (.re (.star a) :: rest) s caps =
      combine (mat f (.re a :: .re (.star a) :: rest) s caps)
        (fun _ => mat f rest s caps) := rfl

theorem mat_group (f : Nat) (i : Nat) (a : RE) (rest : List Inst)
    (s : List Char) (caps : Caps) :
    mat (f + 1) (.re (.group i a) :: rest) s caps =
      mat f (.re a :: .close i s :: rest) s caps := rfl

theorem mat_close (f : Nat) (i : Nat) (s0 : List Char) (rest : List Inst)
    (s : List Char) (caps : Caps) :
    mat (f + 1) (.close i s0 :: rest) s caps =
      mat f rest s ((i, s0.take (s0.length - s.length)) :: caps) := rfl

theorem mat_cls_true {p : Char → Bool} {c : Char} (h : p c = true)
    (f : Nat) (rest : List Inst) (s : List Char) (caps : Caps) :
    mat (f + 1) (.re (.cls p) :: rest) (c :: s) caps =
      mat f rest s caps := by
  simp [mat, matStep, h]

theorem mat_cls_false {p : Char → Bool} {c : Char} (h : p c = false)
    (f : Nat) (rest : List Inst) (s : List Char) (caps : Caps) :
    mat (f + 1) (.re (.cls p) :: rest) (c :: s) caps = .fail := by
  simp [mat, matStep, h]

theorem combine_out (caps : Caps) (s : List Char) (b : Unit → MRes) :
    combine (.out caps s) b = .out caps s := rfl

theorem combine_fail (b : Unit → MRes) : combine .fail b = b () := rfl

/-! ## Library lemmas: digit characters -/

theorem pyDigit_bounds {c : Char} (h : pyDigitB c = true) :
    48 ≤ c.toNat ∧ c.toNat ≤ 57 := by
  simp only [pyDigitB, Bool.and_eq_true, decide_eq_true_eq] at h
  obtain ⟨h1, h2⟩ := h
  exact ⟨h1, h2⟩

theorem pyDigit_not_ws {c : Char} (h : pyDigitB c = true) :
    pyWsB c = false := by
  obtain ⟨h1, h2⟩ := pyDigit_bounds h
  simp only [pyWsB, Bool.or_eq_false_iff]
  refine ⟨⟨⟨⟨⟨?_, ?_⟩, ?_⟩, ?_⟩, ?_⟩, ?_⟩ <;>
    · simp only [beq_eq_false_iff_ne, ne_eq]
      intro hc
      rw [hc] at h1
      exact absurd h1 (by decide)

theorem pyDigit_ne_comma {c : Char} (h : pyDigitB c = true) :
    (c == ',') = false := by
  obtain ⟨h1, h2⟩ := pyDigit_bounds h
  simp only [beq_eq_false_iff_ne, ne_eq]
  intro hc
  rw [hc] at h1
  exact absurd h1 (by decide)

theorem pyDigit_val {c : Char} (h : pyDigitB c = true) :
    c.toNat - 48 ≤ 9 := by
  obtain ⟨h1, h2⟩ := pyDigit_bounds h
  omega

/-- Symbolic run of the single-number `MUR` salary pattern anchored at the
currency token: against `MUR ` followed by three or more digits written
without comma grouping, the capture group takes exactly the first two
digits. -/
theorem murSingle_capture (f : Nat) (d1 d2 d3 : Char) (rest : List Char)
    (h1 : pyDigitB d1 = true) (h2 : pyDigitB d2 = true)
    (h3 : pyDigitB d3 = true) :
    mat (f + 30) [.re salPatMurSingle]
      ('M' :: 'U' :: 'R' :: ' ' :: d1 :: d2 :: d3 :: rest) [] =
      .out [(1, [d1, d2])] (d3 :: rest) := by
  have hws1 : pyWsB d1 = false := pyDigit_not_ws h1
  have hcm : (d3 == ',') = false := pyDigit_ne_comma h3
  have Hclose : ∀ g : Nat,
      mat (g + 2) [.close 1 (d1 :: d2 :: d3 :: rest)] (d3 :: rest) [] =
        .out [(1, [d1, d2])] (d3 :: rest) := by
    intro g
    rw [show g + 2 = (g + 1) + 1 from rfl, mat_close]
    have hlen : (d1 :: d2 :: d3 :: rest).length - (d3 :: rest).length = 2 := by
      simp only [List.length_cons]
      omega
    rw [hlen]
    rw [show (d1 :: d2 :: d3 :: rest).take 2 = [d1, d2] from rfl]
    exact mat_nil g _ _
  have Hstar : ∀ g : Nat,
      mat (g + 3) [.re (.star commaGroup),
          .close 1 (d1 :: d2 :: d3 :: rest)] (d3 :: rest) [] =
        .out [(1, [d1, d2])] (d3 :: rest) := by
    intro g
    rw [show g + 3 = (g + 2) + 1 from rfl, mat_star]
    have hT : mat (g + 2)
        (.re commaGroup :: .re (.star commaGroup) ::
          [.close 1 (d1 :: d2 :: d3 :: rest)]) (d3 :: rest) [] = .fail := by
      rw [show g + 2 = (g + 1) + 1 from rfl,
        show commaGroup =
          RE.seq (.cls (fun x => x == ','))
            (.seq digitRE (.seq digitRE digitRE)) from rfl,
        mat_seq]
      rw [show g + 1 = g + 1 from rfl]
      exact mat_cls_false hcm g _ _ _
    rw [hT, combine_fail]
    exact Hclose g
  have Halt : ∀ g : Nat,
      mat (g + 7) [.re num12, .re (.star commaGroup),
          .close 1 (d1 :: d2 :: d3 :: rest)] (d1 :: d2 :: d3 :: rest) [] =
        .out [(1, [d1, d2])] (d3 :: rest) := by
    intro g
    rw [show g + 7 = (g + 6) + 1 from rfl,
      show num12 = RE.seq (.cls pyDigitB) (.alt (.cls pyDigitB) .eps)
        from rfl,
      mat_seq]
    rw [show g + 6 = (g + 5) + 1 from rfl, mat_cls_true h1]
    rw [show g + 5 = (g + 4) + 1 from rfl, mat_alt]
    have hT : mat (g + 4)
        (.re (.cls pyDigitB) :: .re (.star commaGroup) ::
          [.close 1 (d1 :: d2 :: d3 :: rest)]) (d2 :: d3 :: rest) [] =
        .out [(1, [d1, d2])] (d3 :: rest) := by
      rw [show g + 4 = (g + 3) + 1 from rfl, mat_cls_true h2]
      exact Hstar g
    rw [hT]
    exact combine_out _ _ _
  have Hgrp : ∀ g : Nat,
      mat (g + 9) [.re (.group 1 numRE)] (d1 :: d2 :: d3 :: rest) [] =
        .out [(1, [d1, d2])] (d3 :: rest) := by
    intro g
    rw [show g + 9 = (g + 8) + 1 from rfl, mat_group]
    rw [show g + 8 = (g + 7) + 1 from rfl,
      show numRE = RE.seq num12 (.star commaGroup) from rfl, mat_seq]
    exact Halt g
  rw [show f + 30 = (f + 29) + 1 from rfl,
    show salPatMurSingle =
      RE.seq (litCI r"MUR") (.seq wsStar (.group 1 numRE)) from rfl,
    mat_seq]
  rw [show f + 29 = (f + 28) + 1 from rfl,
    show litCI r"MUR" =
      RE.seq (.cls (fun x => x.toLower == 'M'.toLower))
        (.seq (.cls (fun x => x.toLower == 'U'.toLower))
          (.seq (.cls (fun x => x.toLower == 'R'.toLower)) .eps)) from rfl,
    mat_seq]
  rw [show f + 28 = (f + 27) + 1 from rfl,
    @mat_cls_true (fun x => x.toLower == 'M'.toLower) 'M' (by decide)
      (f + 27) _ _ _]
  rw [show f + 27 = (f + 26) + 1 from rfl, mat_seq]
  rw [show f + 26 = (f + 25) + 1 from rfl,
    @mat_cls_true (fun x => x.toLower == 'U'.toLower) 'U' (by decide)
      (f + 25) _ _ _]
  rw [show f + 25 = (f + 24) + 1 from rfl, mat_seq]
  rw [show f + 24 = (f + 23) + 1 from rfl,
    @mat_cls_true (fun x => x.toLower == 'R'.toLower) 'R' (by decide)
      (f + 23) _ _ _]
  rw [show f + 23 = (f + 22) + 1 from rfl, mat_eps]
  rw [show f + 22 = (f + 21) + 1 from rfl, mat_seq]
  rw [show f + 21 = (f + 20) + 1 from rfl,
    show wsStar = RE.star (.cls pyWsB) from rfl, mat_star]
  have hT1 : mat (f + 20)
      (.re (.cls pyWsB) :: .re (.star (.cls pyWsB)) ::
        [.re (.group 1 numRE)])
      (' ' :: d1 :: d2 :: d3 :: rest) [] =
      .out [(1, [d1, d2])] (d3 :: rest) := by
    rw [show f + 20 = (f + 19) + 1 from rfl,
      @mat_cls_true pyWsB ' ' (by decide) (f + 19) _ _ _]
    rw [show f + 19 = (f + 18) + 1 from rfl, mat_star]
    have hT2 : mat (f + 18)
        (.re (.cls pyWsB) :: .re (.star (.cls pyWsB)) ::
          [.re (.group 1 numRE)]) (d1 :: d2 :: d3 :: rest) [] = .fail := by
      rw [show f + 18 = (f + 17) + 1 from rfl]
      exact mat_cls_false hws1 _ _ _ _
    rw [hT2, combine_fail]
    exact Hgrp (f + 9)
  rw [hT1]
  exact combine_out _ _ _

/-- Fully defaulted row produced from an empty raw record; used by
witnesses. -/
def rowEmptyW : JobRow :=
  ⟨⟨[], [], []⟩, (r"Not specified").data, (r"Not specified").data, none,
   none, none, (r"Not specified").data, (r"Not specified").data,
   (r"Not specified").data, [], [], none⟩

/-- Row produced from the raw record `(x, y, z)`; used by witnesses. -/
def rowXyzW : JobRow :=
  ⟨⟨(r"x").data, (r"y").data, (r"z").data⟩, (r"Not specified").data,
   (r"Not specified").data, none, none, none, (r"Not specified").data,
   (r"Not specified").data, (r"Not specified").data, [], (r"y").data, none⟩

/-! ## Inversion of one record's processing -/

theorem processRecord_raw (rec : RawRecord) (row : JobRow)
    (h : processRecord rec = .ok row) : row.raw = rec := by
  simp only [processRecord] at h
  cases hpd : extract_posted_date rec.description with
  | error e => rw [hpd] at h; exact absurd h (by simp)
  | ok pd => rw [hpd] at h; injection h with h; rw [← h]

theorem salaryAverageOf_spec (mn mx : Option Nat) :
    ((salaryAverageOf mn mx).isSome ↔ mn.isSome ∧ mx.isSome) ∧
    (∀ a b : Nat, mn = some a → mx = some b →
      salaryAverageOf mn mx = some (((a : ℚ) + (b : ℚ)) / 2)) := by
  cases mn with
  | none =>
    cases mx with
    | none => simp [salaryAverageOf, naAdd, naHalf]
    | some y => simp [salaryAverageOf, naAdd, naHalf]
  | some x =>
    cases mx with
    | none => simp [salaryAverageOf, naAdd, naHalf]
    | some y =>
      constructor
      · simp [salaryAverageOf, naAdd, naHalf]
      · intro a b ha hb
        injection ha with ha
        injection hb with hb
        subst ha
        subst hb
        simp [salaryAverageOf, naAdd, naHalf]

/-- Position of the first occurrence of `x` in a list (the length of the
list when `x` does not occur). -/
def firstIdx {α : Type} [DecidableEq α] (x : α) : List α → Nat
  | [] => 0
  | y :: t => if y = x then 0 else firstIdx x t + 1

/-- Spec-side transcription of the deduplication claim, for comparison
with `dedupFirst`: scan the records in order and drop a record exactly
when a structurally identical record occurred earlier; survivors keep
their order of first occurrence. -/
def specKeepFirst {α : Type} [DecidableEq α] (l : List α) : List α :=
  l.foldl (fun acc x => if x ∈ acc then acc else acc ++ [x]) []

theorem firstIdx_cons_self {α : Type} [DecidableEq α] (x : α)
    (xs : List α) : firstIdx x (x :: xs) = 0 := by
  simp [firstIdx]

theorem firstIdx_cons_ne {α : Type} [DecidableEq α] {a x : α} (h : a ≠ x)
    (xs : List α) : firstIdx a (x :: xs) = firstIdx a xs + 1 := by
  have hxa : ¬x = a := fun e => h e.symm
  simp [firstIdx, hxa]

/-- The surviving records of `dedupAux` are pairwise ordered by the
position of their first occurrence in the scanned list. -/
theorem dedupAux_pairwise_firstIdx {α : Type} [DecidableEq α] :
    ∀ (l seen : List α), (dedupAux seen l).Pairwise
      (fun a b => firstIdx a l < firstIdx b l) := by
  intro l
  induction l with
  | nil => intro seen; simp [dedupAux]
  | cons x xs ih =>
    intro seen
    by_cases hx : x ∈ seen
    · simp only [dedupAux, if_pos hx]
      refine (ih seen).imp_of_mem ?_
      intro a b ha hb hr
      have ha2 := (mem_dedupAux a xs seen).mp ha
      have hb2 := (mem_dedupAux b xs seen).mp hb
      have hax : a ≠ x := fun e => ha2.2 (by rw [e]; exact hx)
      have hbx : b ≠ x := fun e => hb2.2 (by rw [e]; exact hx)
      rw [firstIdx_cons_ne hax, firstIdx_cons_ne hbx]
      omega
    · simp only [dedupAux, if_neg hx]
      refine List.Pairwise.cons ?_ ?_
      · intro b hb
        have hb2 := (mem_dedupAux b xs (x :: seen)).mp hb
        have hbx : b ≠ x := fun e => hb2.2
          (by rw [e]; exact List.mem_cons_self x seen)
        rw [firstIdx_cons_self, firstIdx_cons_ne hbx]
        omega
      · refine (ih (x :: seen)).imp_of_mem ?_
        intro a b ha hb hr
        have ha2 := (mem_dedupAux a xs (x :: seen)).mp ha
        have hb2 := (mem_dedupAux b xs (x :: seen)).mp hb
        have hax : a ≠ x := fun e => ha2.2
          (by rw [e]; exact List.mem_cons_self x seen)
        have hbx : b ≠ x := fun e => hb2.2
          (by rw [e]; exact List.mem_cons_self x seen)
        rw [firstIdx_cons_ne hax, firstIdx_cons_ne hbx]
        omega

/-- `dedupAux` only inspects its `seen` argument through membership. -/
theorem dedupAux_congr_seen {α : Type} [DecidableEq α] :
    ∀ (l s1 s2 : List α), (∀ a, a ∈ s1 ↔ a ∈ s2) →
      dedupAux s1 l = dedupAux s2 l := by
  intro l
  induction l with
  | nil => intro s1 s2 h; rfl
  | cons x xs ih =>
    intro s1 s2 h
    by_cases hx : x ∈ s1
    · simp only [dedupAux, if_pos hx, if_pos ((h x).mp hx)]
      exact ih s1 s2 h
    · have hx2 : x ∉ s2 := fun hc => hx ((h x).mpr hc)
      simp only [dedupAux, if_neg hx, if_neg hx2]
      rw [ih (x :: s1) (x :: s2) (fun a => by simp [List.mem_cons, h a])]

theorem specKeepFirst_go {α : Type} [DecidableEq α] :
    ∀ (l acc : List α),
      List.foldl (fun acc2 x => if x ∈ acc2 then acc2 else acc2 ++ [x])
        acc l = acc ++ dedupAux acc l := by
  intro l
  induction l with
  | nil => intro acc; simp [dedupAux]
  | cons x xs ih =>
    intro acc
    by_cases hx : x ∈ acc
    · simp only [List.foldl_cons, if_pos hx, dedupAux]
      exact ih acc
    · simp only [List.foldl_cons, if_neg hx]
      rw [ih (acc ++ [x])]
      simp only [dedupAux, if_neg hx]
      rw [dedupAux_congr_seen xs (acc ++ [x]) (x :: acc)
        (fun a => by simp [List.mem_append, List.mem_cons, or_comm])]
      rw [List.append_assoc]
      simp

theorem dedupFirst_eq_specKeepFirst {α : Type} [DecidableEq α]
    (l : List α) : dedupFirst l = specKeepFirst l := by
  rw [specKeepFirst, specKeepFirst_go l []]
  rfl

/-! ## Claim theorems -/

/-- C4: for every record the pipeline processes, `salary_average` is
present if and only if both `salary_min` and `salary_max` are present, and
when present it equals their arithmetic mean `(salary_min + salary_max) / 2`
(float `NaN` propagation modelled by `Option`). -/
theorem claim_C4_average (rec : RawRecord) (row : JobRow)
    (h : processRecord rec = .ok row) :
    (row.salary_average.isSome ↔
      row.salary_min.isSome ∧ row.salary_max.isSome) ∧
    (∀ a b : Nat, row.salary_min = some a → row.salary_max = some b →
      row.salary_average = some (((a : ℚ) + (b : ℚ)) / 2)) := by
  simp only [processRecord] at h
  cases hpd : extract_posted_date rec.description with
  | error e => rw [hpd] at h; exact absurd h (by simp)
  | ok pd =>
    rw [hpd] at h
    injection h with h
    rw [← h]
    exact salaryAverageOf_spec _ _

theorem claim_C4_average_witness :
    ((rowEmptyW.salary_average.isSome ↔
      rowEmptyW.salary_min.isSome ∧ rowEmptyW.salary_max.isSome) ∧
    (∀ a b : Nat, rowEmptyW.salary_min = some a →
      rowEmptyW.salary_max = some b →
      rowEmptyW.salary_average = some (((a : ℚ) + (b : ℚ)) / 2))) :=
  claim_C4_average ⟨[], [], []⟩ rowEmptyW (by decide)

/-- C7: deduplication keeps exactly the first occurrence of each record:
it is idempotent, the result is a sublist of the input with no duplicates,
no record value is lost, the surviving records are pairwise ordered by the
position of their first occurrence in the input (so survivors appear in
order of first occurrence), and the result coincides with the spec-side
scan `specKeepFirst` that drops a record exactly when a structurally
identical record occurred earlier.  The last two conjuncts rule out any
other duplicate-removal policy (keep-last included). -/
theorem claim_C7_dedup (l : List RawRecord) :
    dedupFirst (dedupFirst l) = dedupFirst l ∧
    List.Sublist (dedupFirst l) l ∧
    (dedupFirst l).Nodup ∧
    (∀ x : RawRecord, x ∈ dedupFirst l ↔ x ∈ l) ∧
    (dedupFirst l).Pairwise (fun x y => firstIdx x l < firstIdx y l) ∧
    dedupFirst l = specKeepFirst l :=
  ⟨dedupFirst_idem l, dedupAux_sublist l [], nodup_dedupAux l [],
   fun x => mem_dedupFirst x l, dedupAux_pairwise_firstIdx l [],
   dedupFirst_eq_specKeepFirst l⟩

/-- C8: whenever extraction completes and produces a table, that table has
exactly one row per deduplicated input record, and each output row carries
its input record's raw columns (`title`, `company`, `description`)
unchanged. -/
theorem claim_C8_frame (t : List RawRecord) (out : List JobRow)
    (h : clean_data t = .ok out) :
    out.length = (dedupFirst t).length ∧
    ∀ i (hi : i < (dedupFirst t).length) (ho : i < out.length),
      (out.get ⟨i, ho⟩).raw = (dedupFirst t).get ⟨i, hi⟩ :=
  ⟨exMapM_ok_length processRecord (dedupFirst t) out h,
   fun i hi ho => processRecord_raw _ _
     (exMapM_ok_get processRecord (dedupFirst t) out h i hi ho)⟩

theorem claim_C8_frame_witness :
    ([rowEmptyW] : List JobRow).length =
      (dedupFirst [(⟨[], [], []⟩ : RawRecord)]).length :=
  (claim_C8_frame [⟨[], [], []⟩] [rowEmptyW] (by decide)).1

/-- C9: a processed row is a pure function of its own raw record: any two
rows produced by the pipeline (from any two tables, in any order, with any
other records present) that share the same raw columns are identical, so in
particular all their derived fields coincide. -/
theorem claim_C9_purity (t1 t2 : List RawRecord) (o1 o2 : List JobRow)
    (r1 r2 : JobRow) (h1 : clean_data t1 = .ok o1)
    (h2 : clean_data t2 = .ok o2) (hm1 : r1 ∈ o1) (hm2 : r2 ∈ o2)
    (hraw : r1.raw = r2.raw) : r1 = r2 := by
  obtain ⟨a1, _, ha1⟩ :=
    exMapM_ok_mem processRecord (dedupFirst t1) o1 h1 r1 hm1
  obtain ⟨a2, _, ha2⟩ :=
    exMapM_ok_mem processRecord (dedupFirst t2) o2 h2 r2 hm2
  have e1 := processRecord_raw _ _ ha1
  have e2 := processRecord_raw _ _ ha2
  have haa : a1 = a2 := by rw [← e1, ← e2, hraw]
  rw [haa, ha2] at ha1
  injection ha1 with hh
  exact hh.symm

theorem claim_C9_purity_witness : rowEmptyW = rowEmptyW :=
  claim_C9_purity [⟨[], [], []⟩]
    [⟨(r"x").data, (r"y").data, (r"z").data⟩, ⟨[], [], []⟩]
    [rowEmptyW] [rowXyzW, rowEmptyW] rowEmptyW rowEmptyW
    (by decide) (by decide) (by decide) (by decide) (by decide)

/-- C2 (counterexample): for the description `Added 32/01/2023` the posted
date marker is found and the token does not parse as a valid day-first
date, yet the extraction does not resolve the field to absent and continue
— it raises (the uncaught `pd.to_datetime` exception, modelled as
`Except.error`). -/
theorem claim_C2_counterexample :
    reSearch dateRE (r"Added 32/01/2023").data =
      some [(1, (r"32/01/2023").data)] ∧
    extract_posted_date (r"Added 32/01/2023").data = .error () ∧
    extract_posted_date (r"Added 32/01/2023").data ≠ .ok none := by
  refine ⟨by decide, by decide, by decide⟩

/-- C2 (amended): when the `Added DD/MM/YYYY` marker is found but the token
is not a parseable day-first date, `extract_posted_date` raises — the
failure propagates out of the field (aborting the record's processing)
instead of resolving the field to absent; the field is absent only when no
marker is found at all. -/
theorem claim_C2_amended (desc : List Char) (caps : Caps) (g : List Char)
    (hs : reSearch dateRE desc = some caps)
    (hg : capGet caps 1 = some g)
    (hbad : pdValidDate (digitsToNat (g.take 2))
      (digitsToNat ((g.drop 3).take 2)) (digitsToNat (g.drop 6)) = false) :
    extract_posted_date desc = .error () := by
  simp only [extract_posted_date, hs, hg, hbad, Bool.false_eq_true,
    if_false]

theorem claim_C2_amended_witness :
    extract_posted_date (r"Added 32/01/2023").data = .error () :=
  claim_C2_amended (r"Added 32/01/2023").data
    [(1, (r"32/01/2023").data)] (r"32/01/2023").data
    (by decide) (by decide) (by decide)

/-- C3 (counterexample): for the record whose description is
`Moka 90 - 20 Permanent`, both salary bounds are derived but
`salary_min = 90 > 20 = salary_max`, refuting the bounds-ordering
invariant. -/
theorem claim_C3_counterexample :
    extract_salary_min (clean_salary (extract_salary_from_description
      (r"Moka 90 - 20 Permanent").data)) = some 90 ∧
    extract_salary_max (clean_salary (extract_salary_from_description
      (r"Moka 90 - 20 Permanent").data)) = some 20 ∧
    ¬(90 : Nat) ≤ 20 := by
  refine ⟨by decide, by decide, by decide⟩

/-- C3 (amended): when only a single numeric figure is found — that is,
when neither range pattern matches the cleaned salary text —
`salary_min = salary_max` (both are read by the identical single-number
pattern); when a range `a - b` does match, `min` is taken verbatim from the
first number and `max` from the second, so `salary_min ≤ salary_max` can
fail for a descending range. -/
theorem claim_C3_amended (s : List Char)
    (hmin : reSearch minRangeRE s = none)
    (hmax : reSearch maxRangeRE s = none) :
    extract_salary_min s = extract_salary_max s := by
  unfold extract_salary_min extract_salary_max
  rw [hmin, hmax]

theorem claim_C3_amended_witness :
    extract_salary_min (r"5000").data = extract_salary_max (r"5000").data :=
  claim_C3_amended (r"5000").data (by decide) (by decide)

/-- C5: in the currency-anchored pattern loop, a pattern whose match
yields only a single number is returned solely when the comma-stripped
integer value is at least 1000; when the value is below the floor the loop
skips that pattern and continues with the remaining patterns unchanged.
In particular a description reading `MUR 500`, which matches no other
pattern, resolves to the sentinel `Not specified`. -/
theorem claim_C5_low_single_skipped (p : RE) (ng : Nat)
    (rest : List (RE × Nat)) (s : List Char) (caps : Caps) (g : List Char)
    (v : Nat) (hs : reSearch p s = some caps)
    (hng : ¬(2 ≤ (pyGroups caps ng).length ∧
      (pyGroups caps ng).getD 1 none ≠ none))
    (hg : (pyGroups caps ng).getD 0 none = some g)
    (hv : pyIntNat (g.filter (fun c => c != ',')) = some v)
    (hlt : v < 1000) :
    tryPatterns ((p, ng) :: rest) s = tryPatterns rest s ∧
    extract_salary_from_description (r"MUR 500").data =
      (r"Not specified").data := by
  constructor
  · simp only [tryPatterns, hs]
    rw [if_neg hng]
    simp only [hg, hv]
    rw [if_neg (by omega)]
  · decide

theorem claim_C5_low_single_skipped_witness :
    (tryPatterns [(salPatMurSingle, 1), (salPatRsSingle, 1),
        (salPatSingleMur, 1), (salPatSingleRs, 1)] (r"MUR 500").data =
      tryPatterns [(salPatRsSingle, 1), (salPatSingleMur, 1),
        (salPatSingleRs, 1)] (r"MUR 500").data) ∧
    extract_salary_from_description (r"MUR 500").data =
      (r"Not specified").data :=
  claim_C5_low_single_skipped salPatMurSingle 1
    [(salPatRsSingle, 1), (salPatSingleMur, 1), (salPatSingleRs, 1)]
    (r"MUR 500").data [(1, ['5', '0'])] ['5', '0'] 50
    (by decide) (by decide) (by decide) (by decide) (by decide)

/-- C6 (counterexample): cleaning is not idempotent.  For the input
`NeMgotiable 123` the first pass removes the `M` and produces
`Negotiable 123`, in which the second pass then finds the keyword
`Negotiable` and collapses the whole string to `Negotiable`. -/
theorem claim_C6_counterexample :
    clean_salary (clean_salary (r"NeMgotiable 123").data) ≠
      clean_salary (r"NeMgotiable 123").data := by
  decide

/-- C6 (amended): `clean_salary` is idempotent on every input whose cleaned
form does not contain a newly created `Negotiable` or `Not disclosed`
occurrence — precisely, whenever the output contains neither keyword, or
the output is the keyword collapse `Negotiable` itself.  (Idempotence fails
exactly when character removal or whitespace collapsing manufactures a
keyword occurrence inside a longer string, as in the counterexample.) -/
theorem claim_C6_amended (x : List Char)
    (h : (occursIn (r"Negotiable").data (clean_salary x) = false ∧
          occursIn (r"Not disclosed").data (clean_salary x) = false) ∨
         clean_salary x = (r"Negotiable").data) :
    clean_salary (clean_salary x) = clean_salary x := by
  rcases h with ⟨hneg, hnd⟩ | heq
  · by_cases hx1 : x = (r"Not specified").data
    · rw [hx1]; decide
    · by_cases hkw : occursIn (r"Negotiable").data (pyStrip x) = true ∨
          occursIn (r"Not disclosed").data (pyStrip x) = true
      · have hy : clean_salary x = (r"Negotiable").data := by
          simp only [clean_salary, if_neg hx1, if_pos hkw]
        rw [hy]; decide
      · have hy : clean_salary x =
            pyStrip (collapseWs (((pyStrip x).filter
                (fun c =>
                  !(c == 'M' || c == 'U' || c == 'R' || c == 's'))).filter
              (fun c => c != ','))) := by
          simp only [clean_salary, if_neg hx1, if_neg hkw]
        set z := ((pyStrip x).filter
            (fun c =>
              !(c == 'M' || c == 'U' || c == 'R' || c == 's'))).filter
          (fun c => c != ',') with hz
        rw [hy] at hneg hnd ⊢
        set y := pyStrip (collapseWs z) with hydef
        have hmem : ∀ a ∈ y, a = ' ' ∨ a ∈ z := by
          intro a ha
          rw [hydef] at ha
          exact mem_collGo z false a (mem_pyStrip a _ ha)
        have hstr : pyStrip y = y := by rw [hydef]; exact pyStrip_idem _
        have hnorm : isNormal y = true := by
          rw [hydef]
          exact isNormal_pyStrip _ (isNormal_collGo z false)
        by_cases hyNS : y = (r"Not specified").data
        · rw [hyNS]; decide
        · have hf1 : y.filter
              (fun c => !(c == 'M' || c == 'U' || c == 'R' || c == 's')) =
              y := by
            refine List.filter_eq_self.mpr ?_
            intro a ha
            rcases hmem a ha with rfl | haz
            · decide
            · rw [hz] at haz
              exact (List.mem_filter.mp (List.mem_filter.mp haz).1).2
          have hf2 : y.filter (fun c => c != ',') = y := by
            refine List.filter_eq_self.mpr ?_
            intro a ha
            rcases hmem a ha with rfl | haz
            · decide
            · rw [hz] at haz
              exact (List.mem_filter.mp haz).2
          have hcoll : collapseWs y = y := collGo_eq_self y hnorm
          simp only [clean_salary, if_neg hyNS, hstr]
          rw [if_neg (by simp [hneg, hnd])]
          rw [hf1, hf2, hcoll]
          exact hstr
  · rw [heq]; decide

theorem claim_C6_amended_witness :
    ((occursIn (r"Negotiable").data (clean_salary (r"12,500").data) =
        false ∧
      occursIn (r"Not disclosed").data (clean_salary (r"12,500").data) =
        false) ∨
     clean_salary (r"12,500").data = (r"Negotiable").data) ∧
    clean_salary (clean_salary (r"12,500").data) =
      clean_salary (r"12,500").data :=
  ⟨Or.inl ⟨by decide, by decide⟩,
   claim_C6_amended ((r"12,500").data) (Or.inl ⟨by decide, by decide⟩)⟩

/-- The record of the C1 scenario: a description containing exactly the
text `Port Louis 15,000 - 25,000 Permanent`. -/
def c1rec : RawRecord :=
  ⟨(r"T").data, (r"C").data,
   (r"Port Louis 15,000 - 25,000 Permanent").data⟩

/-- C1: evaluation of the pipeline at the scenario description
`Port Louis 15,000 - 25,000 Permanent`.  Location and job type are derived
as the claim states, and the salary-text locator does find
`15,000 - 25,000`; but `clean_salary` strips the commas, after which the
`\d{1,2}(?:,\d{3})*` based parsers of `extract_salary_min` /
`extract_salary_max` mis-read `15000 - 25000` — the leftmost range match is
`00 - 25`, so the pipeline derives `salary_min = 0`, `salary_max = 25` and
`salary_average = 12.5` instead of the documented 15000 / 25000 / 20000. -/
theorem claim_C1_pipeline_eval :
    ((processRecord c1rec).map JobRow.location_cleaned =
        .ok (r"Port Louis").data ∧
      (processRecord c1rec).map JobRow.job_type_cleaned =
        .ok (r"Permanent").data ∧
      (processRecord c1rec).map JobRow.salary_extracted =
        .ok (r"15,000 - 25,000").data ∧
      (processRecord c1rec).map JobRow.salary_cleaned =
        .ok (r"15000 - 25000").data ∧
      (processRecord c1rec).map JobRow.salary_min = .ok (some 0) ∧
      (processRecord c1rec).map JobRow.salary_max = .ok (some 25)) ∧
    (processRecord c1rec).map JobRow.salary_average =
      .ok (some ((25 : ℚ) / 2)) := by
  constructor
  · refine ⟨by decide, by decide, by decide, by decide, by decide,
      by decide⟩
  · have hdate : extract_posted_date c1rec.description = .ok none := by
      decide
    have hmn : extract_salary_min
        (clean_salary (extract_salary_from_description c1rec.description)) =
        some 0 := by decide
    have hmx : extract_salary_max
        (clean_salary (extract_salary_from_description c1rec.description)) =
        some 25 := by decide
    simp only [processRecord, hdate, hmn, hmx, Except.map]
    simp only [salaryAverageOf, naAdd, naHalf, Option.map]
    norm_num

/-- C10: in the currency-anchored single-number pattern
(`MUR\s*(\d{1,2}(?:,\d{3})*)`), the numeric capture takes at most two
leading digits: against `MUR ` followed by an amount of three or more
digits written without comma grouping the anchored match captures exactly
the first two digits, whose value is at most 99 and therefore always fails
the 1000 floor; consequently `MUR 5000` is never returned by the pattern
family and the salary text resolves to `Not specified`. -/
theorem claim_C10_capture_floor (f : Nat) (d1 d2 d3 : Char)
    (rest : List Char) (h1 : pyDigitB d1 = true) (h2 : pyDigitB d2 = true)
    (h3 : pyDigitB d3 = true) :
    mat (f + 30) [.re salPatMurSingle]
      ((r"MUR ").data ++ d1 :: d2 :: d3 :: rest) [] =
      .out [(1, [d1, d2])] (d3 :: rest) ∧
    digitsToNat [d1, d2] ≤ 99 ∧
    ¬1000 ≤ digitsToNat [d1, d2] ∧
    extract_salary_from_description (r"MUR 5000").data =
      (r"Not specified").data := by
  have hval : digitsToNat [d1, d2] ≤ 99 := by
    have b1 := pyDigit_val h1
    have b2 := pyDigit_val h2
    have e1 := pyDigit_bounds h1
    have e2 := pyDigit_bounds h2
    simp only [digitsToNat, List.foldl]
    omega
  refine ⟨?_, hval, by omega, by decide⟩
  exact murSingle_capture f d1 d2 d3 rest h1 h2 h3

theorem claim_C10_capture_floor_witness :
    (mat (0 + 30) [.re salPatMurSingle]
        ((r"MUR ").data ++ '5' :: '0' :: '0' :: ['0']) [] =
      .out [(1, ['5', '0'])] ('0' :: ['0']) ∧
    digitsToNat ['5', '0'] ≤ 99 ∧
    ¬1000 ≤ digitsToNat ['5', '0'] ∧
    extract_salary_from_description (r"MUR 5000").data =
      (r"Not specified").data) :=
  claim_C10_capture_floor 0 '5' '0' '0' ['0']
    (by decide) (by decide) (by decide)
